import Mathlib

/-!
Verification of `nand-logs/fix_csv.py`, a single-procedure script that
reads a filter CSV and a flat covariance CSV, re-chunks the covariance
values into groups of nine, pairs each group positionally with a label
from the filter file, and writes the combined rows to an output file.

The script is embedded shallowly: file contents are `String`s (as seen
by Python after text-mode newline translation), Python's `str.split`
on a one-character separator and `readlines` are modelled as recursive
functions on character lists, and the run's observable behaviour is a
record of the printed diagnostic counts and the optional output-file
content (`none` models the `AssertionError` abort: non-zero exit with
no write to the output path).
-/

namespace FixCsv

/-- Python `s.split(sep)` for a one-character separator, on the
character list of `s`: splitting the empty string yields one empty
token, adjacent separators yield empty tokens, and the separator
itself never appears inside a token. -/
def splitCh (sep : Char) : List Char → List (List Char)
  | [] => [[]]
  | c :: rest =>
    if c = sep then [] :: splitCh sep rest
    else
      match splitCh sep rest with
      | [] => [[c]]
      | t :: ts => (c :: t) :: ts

/-- Python `sep.join(tokens)` for a one-character separator, on
character lists. -/
def intercalateCh (sep : Char) : List (List Char) → List Char
  | [] => []
  | [t] => t
  | t :: ts => t ++ sep :: intercalateCh sep ts

/-- Python `f.readlines()` on the character list of the file content:
the content is cut after every newline character, each line keeps its
terminating newline, and a final unterminated line is kept as-is. -/
def readlinesCh : List Char → List (List Char)
  | [] => []
  | c :: rest =>
    if c = '\n' then ['\n'] :: readlinesCh rest
    else
      match readlinesCh rest with
      | [] => [[c]]
      | l :: ls => (c :: l) :: ls

/-- Python `s.split(sep)` at the `String` level. -/
def pySplit (sep : Char) (s : String) : List String :=
  (splitCh sep s.data).map List.asString

/-- Python `f.readlines()` at the `String` level. -/
def pyReadlines (s : String) : List String :=
  (readlinesCh s.data).map List.asString

/-- `chunk9Aux` is `chunk9` with an explicit fuel argument; the fuel
is only there to make the recursion structural. -/
def chunk9Aux {α : Type} : Nat → List α → List (List α)
  | _, [] => []
  | 0, _ :: _ => []
  | Nat.succ n, c :: rest => ((c :: rest).take 9) :: chunk9Aux n ((c :: rest).drop 9)

/-- The `while len(parts) > 0` loop of the script: repeatedly peel the
first nine elements off the list until it is empty. The final group
may hold fewer than nine elements. -/
def chunk9 {α : Type} (l : List α) : List (List α) :=
  chunk9Aux l.length l

/-- `filt = f.readlines()[1:]`: the filter-file lines with the header
line dropped. -/
def filtRows (filtContent : String) : List String :=
  (pyReadlines filtContent).drop 1

/-- `parts = cov.split(',')[1:]`: the covariance tokens with the
header token dropped. -/
def covParts (covContent : String) : List String :=
  (pySplit ',' covContent).drop 1

/-- Python comma-join applied to each 9-token group: the list `lines`
accumulated by the while-loop of the script. -/
def covChunks (covContent : String) : List String :=
  (chunk9 (covParts covContent)).map
    (fun g => (intercalateCh ',' (g.map String.data)).asString)

/-- `filt[i].split(',')[0]`: the text of a filter line up to its first
comma (the whole line when it holds no comma). -/
def label (line : String) : String :=
  ((splitCh ',' line.data).headD []).asString

/-- The output row built for index `i`:
`t + ',' + lines[i] + '\n'` with `t = filt[i].split(',')[0]`. -/
def recordFor (filt lines : List String) (i : Nat) : String :=
  label (filt.getD i "") ++ "," ++ lines.getD i "" ++ "\n"

/-- The `for i in range(len(lines))` loop: fold over the indices,
appending one record per index to the accumulated `result` string. -/
def buildResult (filt lines : List String) : String :=
  (List.range lines.length).foldl (fun acc i => acc ++ recordFor filt lines i) ""

/-- The ordered list of output rows, one per chunk index. -/
def outputRecords (f c : String) : List String :=
  (List.range (covChunks c).length).map (recordFor (filtRows f) (covChunks c))

/-- Observable behaviour of one run: the two counts printed to the
console, and the content written to `log57-covar-fixed.csv` (`none`
when the assertion fails and the run aborts before the write). -/
structure RunResult where
  prints : List Nat
  output : Option String
deriving Repr, DecidableEq

/-- The whole script on given file contents: strip headers, chunk the
covariance tokens into nines, print both counts, assert the counts
are equal, and on success build and write the result string. -/
def fixCsvRun (filtContent covContent : String) : RunResult :=
  let filt := filtRows filtContent
  let lines := covChunks covContent
  { prints := [lines.length, filt.length]
    output :=
      if lines.length = filt.length then
        some (buildResult filt lines)
      else
        none }

/-- The content of the output path after the run, as a function of its
prior content: the script opens the path for writing only on the
success branch, so an aborted run leaves the old content in place. -/
def applyWrite (w : Option String) (old : String) : String :=
  w.getD old

/-- Plain concatenation of a list of strings, used to describe the
result string as the concatenation of its rows. -/
def joinStr : List String → String
  | [] => ""
  | s :: rest => s ++ joinStr rest

/- ### General lemmas about the splitting, joining and chunking
primitives -/

theorem splitCh_ne_nil (sep : Char) (s : List Char) : splitCh sep s ≠ [] := by
  cases s with
  | nil => simp [splitCh]
  | cons c rest =>
    simp only [splitCh]
    split
    · simp
    · split <;> simp

theorem intercalateCh_cons_cons (sep c : Char) (t : List Char)
    (ts : List (List Char)) :
    intercalateCh sep ((c :: t) :: ts) = c :: intercalateCh sep (t :: ts) := by
  cases ts with
  | nil => rfl
  | cons u us => simp [intercalateCh]

theorem intercalateCh_splitCh (sep : Char) (s : List Char) :
    intercalateCh sep (splitCh sep s) = s := by
  induction s with
  | nil => rfl
  | cons c rest ih =>
    simp only [splitCh]
    by_cases hc : c = sep
    · rw [if_pos hc]
      obtain ⟨t, ts, hts⟩ : ∃ t ts, splitCh sep rest = t :: ts := by
        cases h : splitCh sep rest with
        | nil => exact absurd h (splitCh_ne_nil sep rest)
        | cons t ts => exact ⟨t, ts, rfl⟩
      rw [hts]
      rw [hts] at ih
      simp [intercalateCh, ih, hc]
    · rw [if_neg hc]
      obtain ⟨t, ts, hts⟩ : ∃ t ts, splitCh sep rest = t :: ts := by
        cases h : splitCh sep rest with
        | nil => exact absurd h (splitCh_ne_nil sep rest)
        | cons t ts => exact ⟨t, ts, rfl⟩
      rw [hts]
      rw [hts] at ih
      rw [intercalateCh_cons_cons, ih]

theorem mem_splitCh_ne_sep (sep : Char) (s : List Char) :
    ∀ t ∈ splitCh sep s, ∀ ch ∈ t, ch ≠ sep := by
  induction s with
  | nil =>
    intro t ht ch hch
    simp [splitCh] at ht
    subst ht
    simp at hch
  | cons c rest ih =>
    intro t ht ch hch
    simp only [splitCh] at ht
    by_cases hc : c = sep
    · rw [if_pos hc] at ht
      rcases List.mem_cons.mp ht with h | h
      · subst h; simp at hch
      · exact ih t h ch hch
    · rw [if_neg hc] at ht
      obtain ⟨u, us, hus⟩ : ∃ u us, splitCh sep rest = u :: us := by
        cases h : splitCh sep rest with
        | nil => exact absurd h (splitCh_ne_nil sep rest)
        | cons u us => exact ⟨u, us, rfl⟩
      rw [hus] at ht
      rcases List.mem_cons.mp ht with h | h
      · subst h
        rcases List.mem_cons.mp hch with h | h
        · subst h; exact hc
        · exact ih u (hus ▸ List.mem_cons_self u us) ch h
      · exact ih t (hus ▸ List.mem_cons_of_mem u h) ch hch

theorem splitCh_of_no_sep (sep : Char) (s : List Char)
    (h : ∀ ch ∈ s, ch ≠ sep) : splitCh sep s = [s] := by
  induction s with
  | nil => rfl
  | cons c rest ih =>
    have hc : c ≠ sep := h c (List.mem_cons_self c rest)
    simp only [splitCh, if_neg hc]
    rw [ih fun ch hch => h ch (List.mem_cons_of_mem c hch)]

theorem chunk9Aux_congr {α : Type} (n : Nat) :
    ∀ (m : Nat) (l : List α), l.length ≤ n → l.length ≤ m →
      chunk9Aux n l = chunk9Aux m l := by
  induction n with
  | zero =>
    intro m l hn _
    have : l = [] := List.eq_nil_of_length_eq_zero (Nat.le_zero.mp hn)
    subst this
    cases m <;> rfl
  | succ n ih =>
    intro m l hn hm
    cases l with
    | nil => cases m <;> rfl
    | cons c rest =>
      cases m with
      | zero => simp at hm
      | succ m' =>
        simp only [chunk9Aux]
        congr 1
        apply ih
        · simp only [List.length_drop, List.length_cons]
          simp only [List.length_cons] at hn
          omega
        · simp only [List.length_drop, List.length_cons]
          simp only [List.length_cons] at hm
          omega

theorem chunk9_nil {α : Type} : chunk9 ([] : List α) = [] := rfl

theorem chunk9_cons {α : Type} (l : List α) (h : l ≠ []) :
    chunk9 l = l.take 9 :: chunk9 (l.drop 9) := by
  cases l with
  | nil => exact absurd rfl h
  | cons c rest =>
    show chunk9Aux (c :: rest).length (c :: rest) = _
    simp only [List.length_cons, chunk9Aux]
    congr 1
    apply chunk9Aux_congr
    · simp only [List.length_drop, List.length_cons]; omega
    · exact le_refl _

theorem chunk9_flatten_bounded {α : Type} :
    ∀ (n : Nat) (l : List α), l.length ≤ n → (chunk9 l).flatten = l := by
  intro n
  induction n with
  | zero =>
    intro l h
    have : l = [] := List.eq_nil_of_length_eq_zero (Nat.le_zero.mp h)
    subst this
    rfl
  | succ n ih =>
    intro l h
    cases l with
    | nil => rfl
    | cons c rest =>
      rw [chunk9_cons _ (by simp), List.flatten_cons,
        ih ((c :: rest).drop 9) (by
          simp only [List.length_drop, List.length_cons]
          simp only [List.length_cons] at h
          omega),
        List.take_append_drop]

theorem chunk9_flatten {α : Type} (l : List α) : (chunk9 l).flatten = l :=
  chunk9_flatten_bounded l.length l (le_refl _)

theorem chunk9_length_bounded {α : Type} :
    ∀ (n : Nat) (l : List α), l.length ≤ n →
      (chunk9 l).length = (l.length + 8) / 9 := by
  intro n
  induction n with
  | zero =>
    intro l h
    have : l = [] := List.eq_nil_of_length_eq_zero (Nat.le_zero.mp h)
    subst this
    simp only [chunk9, chunk9Aux, List.length_nil]
  | succ n ih =>
    intro l h
    cases l with
    | nil =>
      simp only [chunk9, chunk9Aux, List.length_nil]
    | cons c rest =>
      rw [chunk9_cons _ (by simp), List.length_cons,
        ih ((c :: rest).drop 9) (by
          simp only [List.length_drop, List.length_cons]
          simp only [List.length_cons] at h
          omega)]
      simp only [List.length_drop, List.length_cons]
      omega

theorem chunk9_length {α : Type} (l : List α) :
    (chunk9 l).length = (l.length + 8) / 9 :=
  chunk9_length_bounded l.length l (le_refl _)

theorem chunk9_decomp_bounded {α : Type} :
    ∀ (n : Nat) (l : List α), l.length ≤ n → l ≠ [] →
      ∃ gs g, chunk9 l = gs ++ [g] ∧ (∀ x ∈ gs, x.length = 9) ∧
        g.length = if 9 ∣ l.length then 9 else l.length % 9 := by
  intro n
  induction n with
  | zero =>
    intro l hn h
    exact absurd (List.eq_nil_of_length_eq_zero (Nat.le_zero.mp hn)) h
  | succ n ih =>
    intro l hn h
    cases l with
    | nil => exact absurd rfl h
    | cons c rest =>
      by_cases hd : (c :: rest).drop 9 = []
      · refine ⟨[], (c :: rest).take 9, ?_, by simp, ?_⟩
        · rw [chunk9_cons _ (by simp), hd, chunk9_nil]
          rfl
        · have hle : (c :: rest).length ≤ 9 := by
            by_contra hgt
            push_neg at hgt
            have := congrArg List.length hd
            simp only [List.length_drop, List.length_nil] at this
            omega
          rw [List.take_of_length_le hle]
          have hpos : 0 < (c :: rest).length := by simp
          split
          · rename_i hdvd
            omega
          · omega
      · have hgt : 9 < (c :: rest).length := by
          by_contra hle
          push_neg at hle
          exact hd (List.drop_eq_nil_of_le hle)
        have hle' : ((c :: rest).drop 9).length ≤ n := by
          simp only [List.length_drop, List.length_cons]
          simp only [List.length_cons] at hn
          omega
        obtain ⟨gs, g, h1, h2, h3⟩ := ih ((c :: rest).drop 9) hle' hd
        refine ⟨(c :: rest).take 9 :: gs, g, ?_, ?_, ?_⟩
        · rw [chunk9_cons _ (by simp), h1]
          rfl
        · intro x hx
          rcases List.mem_cons.mp hx with hx | hx
          · subst hx
            rw [List.length_take]
            omega
          · exact h2 x hx
        · rw [h3]
          simp only [List.length_drop]
          split <;> split <;> omega

theorem chunk9_decomp {α : Type} (l : List α) (h : l ≠ []) :
    ∃ gs g, chunk9 l = gs ++ [g] ∧ (∀ x ∈ gs, x.length = 9) ∧
      g.length = if 9 ∣ l.length then 9 else l.length % 9 :=
  chunk9_decomp_bounded l.length l (le_refl _) h

/- ### Lemmas about string concatenation and the result-building loop -/

theorem joinStr_cons (s : String) (l : List String) :
    joinStr (s :: l) = s ++ joinStr l := rfl

theorem foldl_append_joinStr (g : Nat → String) (l : List Nat) :
    ∀ a : String,
      l.foldl (fun acc i => acc ++ g i) a = a ++ joinStr (l.map g) := by
  induction l with
  | nil => intro a; simp [joinStr, String.append_empty]
  | cons x xs ih =>
    intro a
    simp only [List.foldl_cons, List.map_cons, joinStr_cons]
    rw [ih (a ++ g x), String.append_assoc]

theorem buildResult_eq_joinStr (filt lines : List String) :
    buildResult filt lines =
      joinStr ((List.range lines.length).map (recordFor filt lines)) := by
  unfold buildResult
  rw [foldl_append_joinStr, String.empty_append]

theorem joinStr_of_mem (x : String) (L : List String) (h : x ∈ L) :
    ∃ pre post, joinStr L = pre ++ x ++ post := by
  induction L with
  | nil => simp at h
  | cons s rest ih =>
    rcases List.mem_cons.mp h with h | h
    · subst h
      exact ⟨"", joinStr rest, by rw [String.empty_append]; rfl⟩
    · obtain ⟨p, q, hpq⟩ := ih h
      refine ⟨s ++ p, q, ?_⟩
      rw [joinStr_cons, hpq]
      simp [String.append_assoc]

/- ### Lemmas relating the run to its output rows -/

theorem rangeMap_getD (g : Nat → String) (n i : Nat) (h : i < n) :
    ((List.range n).map g).getD i "" = g i := by
  rw [List.getD_eq_getElem?_getD, List.getElem?_map, List.getElem?_range h]
  rfl

theorem run_output_eq_joinStr (f c out : String)
    (h : (fixCsvRun f c).output = some out) :
    out = joinStr (outputRecords f c) := by
  unfold fixCsvRun at h
  simp only at h
  split at h
  · rename_i heq
    have : out = buildResult (filtRows f) (covChunks c) :=
      (Option.some.injEq _ _ ▸ h).symm
    rw [this, buildResult_eq_joinStr]
    rfl
  · exact absurd h (by simp)

/- ### Claim theorems -/

/-- Claim C1: on every run that reaches the output-writing stage, the
written content is the concatenation of the output rows, and the row at
each index i in range is the label of the i-th filter data line, a
comma, the i-th 9-token chunk, and a newline — rows in filter-file
order, one per index, with no reordering, deduplication or
aggregation. -/
theorem output_rows_positional (f c out : String)
    (h : (fixCsvRun f c).output = some out) :
    out = joinStr (outputRecords f c) ∧
    (outputRecords f c).length = (covChunks c).length ∧
    ∀ i, i < (covChunks c).length →
      (outputRecords f c).getD i "" =
        label ((filtRows f).getD i "") ++ "," ++ (covChunks c).getD i "" ++ "\n" := by
  refine ⟨run_output_eq_joinStr f c out h, ?_, ?_⟩
  · rw [outputRecords, List.length_map, List.length_range]
  · intro i hi
    rw [outputRecords, rangeMap_getD _ _ _ hi]
    rfl

/-- Witness for C1 at the concrete scenario of the spec: two filter
data rows and eighteen covariance data tokens. -/
theorem output_rows_positional_witness :
    "100,1,2,3,4,5,6,7,8,9\n200,10,11,12,13,14,15,16,17,18\n" =
      joinStr (outputRecords "ts,x\n100,a\n200,b\n"
        "hdr,1,2,3,4,5,6,7,8,9,10,11,12,13,14,15,16,17,18") ∧
    (outputRecords "ts,x\n100,a\n200,b\n"
        "hdr,1,2,3,4,5,6,7,8,9,10,11,12,13,14,15,16,17,18").length =
      (covChunks "hdr,1,2,3,4,5,6,7,8,9,10,11,12,13,14,15,16,17,18").length ∧
    ∀ i, i < (covChunks "hdr,1,2,3,4,5,6,7,8,9,10,11,12,13,14,15,16,17,18").length →
      (outputRecords "ts,x\n100,a\n200,b\n"
          "hdr,1,2,3,4,5,6,7,8,9,10,11,12,13,14,15,16,17,18").getD i "" =
        label ((filtRows "ts,x\n100,a\n200,b\n").getD i "") ++ "," ++
          (covChunks "hdr,1,2,3,4,5,6,7,8,9,10,11,12,13,14,15,16,17,18").getD i "" ++ "\n" :=
  output_rows_positional "ts,x\n100,a\n200,b\n"
    "hdr,1,2,3,4,5,6,7,8,9,10,11,12,13,14,15,16,17,18"
    "100,1,2,3,4,5,6,7,8,9\n200,10,11,12,13,14,15,16,17,18\n" (by decide)

/-- Claim C2 fails as stated: with one filter data row and five
covariance data tokens (5 ≠ 9·1), the five tokens still form a single
short chunk, the assertion passes, and the output file IS written. -/
theorem mismatch_detection_counterexample :
    (filtRows "h\na,b\n").length = 1 ∧
    (covParts "x,1,2,3,4,5").length = 5 ∧
    (5 : Nat) ≠ 9 * 1 ∧
    (fixCsvRun "h\na,b\n" "x,1,2,3,4,5").output = some "a,1,2,3,4,5\n" :=
  ⟨by decide, by decide, by decide, by decide⟩

/-- Claim C2 (as amended): the run fails before writing any output
exactly when the covariance data tokens do not chunk into as many
groups as there are filter data rows, i.e. when
⌈(token count − 1) / 9⌉ differs from the data-row count m (rather than
whenever token count − 1 ≠ 9·m). -/
theorem mismatch_detection_amended (f c : String)
    (h : ((covParts c).length + 8) / 9 ≠ (filtRows f).length) :
    (fixCsvRun f c).output = none := by
  have hlen : (covChunks c).length ≠ (filtRows f).length := by
    rw [covChunks, List.length_map, chunk9_length]
    exact h
  unfold fixCsvRun
  exact if_neg hlen

/-- Witness for the amended C2: one filter data row against ten
covariance data tokens gives two chunks against one row, so the run
aborts with no output. -/
theorem mismatch_detection_amended_witness :
    ((covParts "x,1,2,3,4,5,6,7,8,9,10").length + 8) / 9 ≠
      (filtRows "h\na,b\n").length ∧
    (fixCsvRun "h\na,b\n" "x,1,2,3,4,5,6,7,8,9,10").output = none :=
  ⟨by decide, mismatch_detection_amended "h\na,b\n" "x,1,2,3,4,5,6,7,8,9,10" (by decide)⟩

/-- Claim C3: when the covariance data-token count is exactly nine
times the filter data-row count, the run succeeds and writes exactly
that many output rows. -/
theorem wellformed_success (f c : String)
    (h : (covParts c).length = 9 * (filtRows f).length) :
    (fixCsvRun f c).output = some (joinStr (outputRecords f c)) ∧
    (outputRecords f c).length = (filtRows f).length := by
  have hlen : (covChunks c).length = (filtRows f).length := by
    rw [covChunks, List.length_map, chunk9_length, h]
    omega
  constructor
  · show (if (covChunks c).length = (filtRows f).length then
        some (buildResult (filtRows f) (covChunks c)) else none) =
      some (joinStr (outputRecords f c))
    rw [if_pos hlen, buildResult_eq_joinStr]
    rfl
  · rw [outputRecords, List.length_map, List.length_range, hlen]

/-- Witness for C3 at the concrete scenario of the spec: eighteen data
tokens against two data rows. -/
theorem wellformed_success_witness :
    (covParts "hdr,1,2,3,4,5,6,7,8,9,10,11,12,13,14,15,16,17,18").length =
      9 * (filtRows "ts,x\n100,a\n200,b\n").length ∧
    (fixCsvRun "ts,x\n100,a\n200,b\n"
        "hdr,1,2,3,4,5,6,7,8,9,10,11,12,13,14,15,16,17,18").output =
      some (joinStr (outputRecords "ts,x\n100,a\n200,b\n"
        "hdr,1,2,3,4,5,6,7,8,9,10,11,12,13,14,15,16,17,18")) ∧
    (outputRecords "ts,x\n100,a\n200,b\n"
        "hdr,1,2,3,4,5,6,7,8,9,10,11,12,13,14,15,16,17,18").length =
      (filtRows "ts,x\n100,a\n200,b\n").length :=
  ⟨by decide,
    wellformed_success "ts,x\n100,a\n200,b\n"
      "hdr,1,2,3,4,5,6,7,8,9,10,11,12,13,14,15,16,17,18" (by decide)⟩

/-- Claim C4: when the covariance data-token count is not a multiple
of nine, the chunking still emits every token — the groups flatten
back to the original token list in order — every group before the last
has exactly nine tokens, and the final group has the remainder: fewer
than nine tokens but at least one, neither rejected nor padded. -/
theorem chunking_partial_group (c : String)
    (h : ¬ 9 ∣ (covParts c).length) :
    ∃ gs g, chunk9 (covParts c) = gs ++ [g] ∧
      (gs ++ [g]).flatten = covParts c ∧
      (∀ x ∈ gs, x.length = 9) ∧
      g.length = (covParts c).length % 9 ∧
      0 < g.length ∧ g.length < 9 := by
  have hne : covParts c ≠ [] := by
    intro he
    exact h (by rw [he]; simp)
  obtain ⟨gs, g, h1, h2, h3⟩ := chunk9_decomp (covParts c) hne
  rw [if_neg h] at h3
  refine ⟨gs, g, h1, ?_, h2, h3, ?_, ?_⟩
  · rw [← h1]
    exact chunk9_flatten _
  · rw [h3]
    omega
  · rw [h3]
    omega

/-- Witness for C4: five data tokens give one final group of five. -/
theorem chunking_partial_group_witness :
    ¬ 9 ∣ (covParts "x,1,2,3,4,5").length ∧
    ∃ gs g, chunk9 (covParts "x,1,2,3,4,5") = gs ++ [g] ∧
      (gs ++ [g]).flatten = covParts "x,1,2,3,4,5" ∧
      (∀ x ∈ gs, x.length = 9) ∧
      g.length = (covParts "x,1,2,3,4,5").length % 9 ∧
      0 < g.length ∧ g.length < 9 :=
  ⟨by decide, chunking_partial_group "x,1,2,3,4,5" (by decide)⟩

/-- Claim C5: whenever the label-row count differs from the chunk
count, the run aborts with no output: the output value is `none` and
the pre-existing content of the output path is left unchanged. -/
theorem mismatch_aborts_no_write (f c : String)
    (h : (covChunks c).length ≠ (filtRows f).length) :
    (fixCsvRun f c).output = none ∧
    ∀ old, applyWrite (fixCsvRun f c).output old = old := by
  have ho : (fixCsvRun f c).output = none := by
    unfold fixCsvRun
    exact if_neg h
  refine ⟨ho, fun old => ?_⟩
  rw [ho]
  rfl

/-- Witness for C5: zero filter data rows against one chunk. -/
theorem mismatch_aborts_no_write_witness :
    (covChunks "x,1").length ≠ (filtRows "h\n").length ∧
    (fixCsvRun "h\n" "x,1").output = none ∧
    applyWrite (fixCsvRun "h\n" "x,1").output "previous content" =
      "previous content" :=
  ⟨by decide, (mismatch_aborts_no_write "h\n" "x,1" (by decide)).1,
    (mismatch_aborts_no_write "h\n" "x,1" (by decide)).2 "previous content"⟩

/-- Claim C6: the first filter-file line and the first covariance
token never contribute to the run: any two input pairs that agree
after dropping them produce identical runs (same prints, same
output). -/
theorem header_stripping (f1 f2 c1 c2 : String)
    (hf : (pyReadlines f1).drop 1 = (pyReadlines f2).drop 1)
    (hc : (pySplit ',' c1).drop 1 = (pySplit ',' c2).drop 1) :
    fixCsvRun f1 c1 = fixCsvRun f2 c2 := by
  have hfr : filtRows f1 = filtRows f2 := hf
  have hcc : covChunks c1 = covChunks c2 := by
    unfold covChunks covParts
    rw [hc]
  unfold fixCsvRun
  rw [hfr, hcc]

/-- Witness for C6: two input pairs differing only in their headers
run identically. -/
theorem header_stripping_witness :
    (pyReadlines "h1\n100,a\n").drop 1 = (pyReadlines "h2,zz\n100,a\n").drop 1 ∧
    (pySplit ',' "p,1,2,3,4,5,6,7,8,9").drop 1 =
      (pySplit ',' "q,1,2,3,4,5,6,7,8,9").drop 1 ∧
    fixCsvRun "h1\n100,a\n" "p,1,2,3,4,5,6,7,8,9" =
      fixCsvRun "h2,zz\n100,a\n" "q,1,2,3,4,5,6,7,8,9" :=
  ⟨by decide, by decide,
    header_stripping "h1\n100,a\n" "h2,zz\n100,a\n" "p,1,2,3,4,5,6,7,8,9"
      "q,1,2,3,4,5,6,7,8,9" (by decide) (by decide)⟩

/-- Claim C7: a filter line holding no comma yields the whole line as
its label. -/
theorem label_no_delimiter (line : String)
    (h : ∀ ch ∈ line.data, ch ≠ ',') : label line = line := by
  unfold label
  rw [splitCh_of_no_sep ',' line.data h]
  rfl

/-- Witness for C7: a comma-free line (with its terminating newline)
is its own label. -/
theorem label_no_delimiter_witness :
    (∀ ch ∈ ("100\n" : String).data, ch ≠ ',') ∧ label "100\n" = "100\n" :=
  ⟨by decide, label_no_delimiter "100\n" (by decide)⟩

/-- Claim C8 fails as stated: with two filter data rows and one chunk,
the script prints [1, 2] — the chunk count first — not [2, 1] as the
claimed order (label-row count first) requires. -/
theorem print_order_counterexample :
    (filtRows "h,x\n100,a\n200,b\n").length = 2 ∧
    (covChunks "hdr,1,2,3,4,5,6,7,8,9").length = 1 ∧
    (fixCsvRun "h,x\n100,a\n200,b\n" "hdr,1,2,3,4,5,6,7,8,9").prints = [1, 2] ∧
    (fixCsvRun "h,x\n100,a\n200,b\n" "hdr,1,2,3,4,5,6,7,8,9").prints ≠ [2, 1] :=
  ⟨by decide, by decide, by decide, by decide⟩

/-- Claim C8 (as amended): before the equality check the script prints
exactly two diagnostic counts — the chunk count first, then the
label-row count. -/
theorem print_order_amended (f c : String) :
    (fixCsvRun f c).prints = [(covChunks c).length, (filtRows f).length] :=
  rfl

/-- Claim C9: splitting the empty covariance content yields a single
empty token, which is consumed as the header, leaving no data tokens
and no chunks; against a filter file with at most a header line the
run succeeds, prints [0, 0], and writes an empty output file. -/
theorem empty_covariance (f : String) (h : (pyReadlines f).length ≤ 1) :
    pySplit ',' "" = [""] ∧ covParts "" = [] ∧ covChunks "" = [] ∧
    (fixCsvRun f "").output = some "" ∧ (fixCsvRun f "").prints = [0, 0] := by
  have hf : filtRows f = [] := by
    unfold filtRows
    exact List.drop_eq_nil_of_le h
  refine ⟨rfl, rfl, rfl, ?_, ?_⟩
  · show (if (covChunks "").length = (filtRows f).length then
      some (buildResult (filtRows f) (covChunks "")) else none) = some ""
    rw [hf]
    rfl
  · show [(covChunks "").length, (filtRows f).length] = [0, 0]
    rw [hf]
    rfl

/-- Witness for C9: a filter file holding only its header line. -/
theorem empty_covariance_witness :
    (pyReadlines "ts,x\n").length ≤ 1 ∧
    (pySplit ',' "" = [""] ∧ covParts "" = [] ∧ covChunks "" = [] ∧
      (fixCsvRun "ts,x\n" "").output = some "" ∧
      (fixCsvRun "ts,x\n" "").prints = [0, 0]) :=
  ⟨by decide, empty_covariance "ts,x\n" (by decide)⟩

/-- Claim C10: the covariance content is split only on commas —
rejoining the tokens with commas restores the content character for
character, so newline characters are never split points and stay
embedded inside individual tokens, none of which holds a comma — and
on a successful run every chunk string occurs verbatim inside the
written output. -/
theorem covariance_newlines_verbatim (c : String) :
    (intercalateCh ',' (splitCh ',' c.data) = c.data ∧
      ∀ t ∈ splitCh ',' c.data, ∀ ch ∈ t, ch ≠ ',') ∧
    ∀ f out, (fixCsvRun f c).output = some out →
      ∀ g ∈ covChunks c, ∃ pre post, out = pre ++ g ++ post := by
  refine ⟨⟨intercalateCh_splitCh ',' c.data, mem_splitCh_ne_sep ',' c.data⟩, ?_⟩
  intro f out h g hg
  rw [run_output_eq_joinStr f c out h]
  obtain ⟨i, hi, hgi⟩ := List.mem_iff_getElem.mp hg
  have hrec : recordFor (filtRows f) (covChunks c) i ∈ outputRecords f c := by
    unfold outputRecords
    exact List.mem_map.mpr ⟨i, List.mem_range.mpr hi, rfl⟩
  obtain ⟨p, q, hpq⟩ := joinStr_of_mem _ _ hrec
  refine ⟨p ++ (label ((filtRows f).getD i "") ++ ","), "\n" ++ q, ?_⟩
  rw [hpq]
  unfold recordFor
  have hgd : (covChunks c).getD i "" = g := by
    rw [List.getD_eq_getElem?_getD, List.getElem?_eq_getElem hi, hgi]
    rfl
  rw [hgd]
  simp [String.append_assoc]

/-- Witness for C10: a covariance token holding a newline survives
verbatim into the chunk and into the written output. -/
theorem covariance_newlines_verbatim_witness :
    (fixCsvRun "h\nr,x\n" "h,1,2\n3,4,5,6,7,8,9,10").output =
      some "r,1,2\n3,4,5,6,7,8,9,10\n" ∧
    ("1,2\n3,4,5,6,7,8,9,10" : String) ∈ covChunks "h,1,2\n3,4,5,6,7,8,9,10" ∧
    ∃ pre post, ("r,1,2\n3,4,5,6,7,8,9,10\n" : String) =
      pre ++ "1,2\n3,4,5,6,7,8,9,10" ++ post :=
  ⟨by decide, by decide,
    (covariance_newlines_verbatim "h,1,2\n3,4,5,6,7,8,9,10").2 "h\nr,x\n"
      "r,1,2\n3,4,5,6,7,8,9,10\n" (by decide) "1,2\n3,4,5,6,7,8,9,10" (by decide)⟩

end FixCsv
